import Mathlib

/-!
Verification of the dead-function detector in `deadcode.go`.

The file embeds the pure tail of `runAnalysis` (grouping of unreachable
functions, the guard-based dedup, the package filter, the generated-file
exclusion, the report loop) together with its error-handling shell.
External collaborators (`packages.Load`, the SSA builder, `rta.Analyze`,
`regexp.Compile`, `filepath.Rel`) are modelled as inputs: their outputs are
parameters of the embedded functions, exactly as `runAnalysis` consumes them.

Go maps (`reachablePosn`, `byPkgPath`, the inner per-package sets) have an
unspecified iteration order; the embedding keeps the grouped map as an
insertion-ordered association list and, where a claim depends on iteration
order, quantifies over admissible enumerations (`GroupsPerm`).
-/

namespace Deadcode

/-- go/token.Position: the unit of identity used to correlate SSA functions
with syntactic declarations (`Filename`, `Offset`, `Line`, `Column`). -/
structure Position where
  filename : String
  offset : Nat
  line : Nat
  column : Nat
deriving DecidableEq, Repr

/-- The zero `token.Position`, produced by `Fset.Position` for an invalid
`token.Pos`. -/
def zeroPosition : Position := ⟨"", 0, 0, 0⟩

/-- An SSA function as `runAnalysis` sees it: its name (`fn.Name()`), its
enclosing package path (`fn.Pkg.Pkg.Path()`), and its source position.
`pos = none` models an invalid `token.Pos` (`fn.Pos().IsValid() = false`). -/
structure SsaFunc where
  name : String
  pkgpath : String
  pos : Option Position
deriving DecidableEq, Repr

/-- `prog.Fset.Position (fn.Pos())`: the zero position when `fn.Pos()` is
invalid, the carried position otherwise. -/
def SsaFunc.posn (fn : SsaFunc) : Position := fn.pos.getD zeroPosition

/-- Issue from the linter (deadcode.go): function name, file path made
relative to the working directory, line number. -/
structure Issue where
  Func : String
  Filename : String
  Line : Nat
deriving DecidableEq, Repr

/-- Settings of the linter (deadcode.go): `test` and `filter`. -/
structure Settings where
  test : Bool
  filter : String

/-- The five fatal-error return sites of `runAnalysis` in deadcode.go:
`Load: ...`, `no find packages`, `packages contain errors`,
`failed create filter: ...`, `no find main packages`. -/
inductive AnalysisError where
  | load
  | noPackages
  | pkgErrors
  | badFilter
  | noMains
deriving DecidableEq, Repr

/-- `Rel` from deadcode.go. `relf` models `filepath.Rel cwd` of the Go
standard library: `none` models a non-nil error, in which case the input
filename is returned unchanged. -/
def Rel (relf : String → Option String) (filename : String) : String :=
  match relf filename with
  | some rel => rel
  | none => filename

/-- The `reachablePosn` loop of `runAnalysis`: the position of every
rta-reachable function that has a valid position or is named `init` is
collected (as a set; only membership is ever consulted). -/
def reachablePosn (rtaReachable : List SsaFunc) : List Position :=
  (rtaReachable.filter (fun fn => fn.pos.isSome || fn.name == "init")).map SsaFunc.posn

/-- State of the grouping loop of `runAnalysis`: the (mutated) reachable
position set and the `byPkgPath` map, kept as an insertion-ordered
association list from package path to that package's unreachable functions. -/
structure GroupState where
  reach : List Position
  byPkgPath : List (String × List SsaFunc)
deriving DecidableEq, Repr

/-- `byPkgPath[pkgpath][fn] = true`: add `fn` to the group of `pkgpath`,
creating the group if absent. -/
def addToGroup : List (String × List SsaFunc) → String → SsaFunc → List (String × List SsaFunc)
  | [], pkgpath, fn => [(pkgpath, [fn])]
  | g :: rest, pkgpath, fn =>
    if g.1 = pkgpath then (g.1, g.2 ++ [fn]) :: rest
    else g :: addToGroup rest pkgpath fn

/-- One iteration of the grouping loop: if the function's position is
already reachable, skip it; otherwise insert the position back into the set
(the dedup guard) and add the function to its package group. -/
def resolveStep (st : GroupState) (fn : SsaFunc) : GroupState :=
  if fn.posn ∈ st.reach then st
  else ⟨fn.posn :: st.reach, addToGroup st.byPkgPath fn.pkgpath fn⟩

/-- The full grouping loop of `runAnalysis` over `sourceFuncs`. -/
def resolve (sourceFuncs : List SsaFunc) (reach : List Position) : GroupState :=
  sourceFuncs.foldl resolveStep ⟨reach, []⟩

/-- The report loop proceeds with a package path unless a filter is set and
does not match it (`filter != nil && !filter.MatchString(pkgpath)`). -/
def matchFilter (filter : Option (String → Bool)) (pkgpath : String) : Bool :=
  match filter with
  | none => true
  | some f => f pkgpath

/-- The Issue built for a surviving function in the report loop. -/
def issueOf (relf : String → Option String) (fn : SsaFunc) : Issue :=
  ⟨fn.name, Rel relf fn.posn.filename, fn.posn.line⟩

/-- The report loop of `runAnalysis` (deadcode.go): iterate the grouped map
in the order given, skip packages rejected by the filter, skip functions in
generated files, and append one Issue per surviving function. -/
def buildIssues (relf : String → Option String) (filter : Option (String → Bool))
    (generated : List String) (groups : List (String × List SsaFunc)) : List Issue :=
  groups.foldl
    (fun issues g =>
      if matchFilter filter g.1 then
        g.2.foldl
          (fun issues fn =>
            if fn.posn.filename ∈ generated then issues
            else issues ++ [issueOf relf fn])
          issues
      else issues)
    []

/-- Outputs of the external collaborators consumed by one run of
`runAnalysis`: whether `packages.Load` returned an error, `len(initial)`,
the result of `packages.PrintErrors`, the first module's path (requested via
`packages.NeedModule`), `len(mains)`, the collected source-level functions,
the generated-file set, and the rta-reachable function set. -/
structure Program where
  loadErr : Bool
  numInitial : Nat
  numPkgErrors : Nat
  modulePath : Option String
  numMains : Nat
  sourceFuncs : List SsaFunc
  generated : List String
  rtaReachable : List SsaFunc

/-- Lines 129-137 of deadcode.go: a set filter flag must compile
(`compile` models `regexp.Compile`: `none` is a compile error); an empty
flag leaves the filter nil. -/
def compileFilter (compile : String → Option (String → Bool)) (filterFlag : String) :
    Except AnalysisError (Option (String → Bool)) :=
  if filterFlag = "" then .ok none
  else
    match compile filterFlag with
    | some f => .ok (some f)
    | none => .error .badFilter

/-- `runAnalysis` of deadcode.go: the fatal checks in source order (load
error, zero packages, package errors, filter compilation, no main
packages), then the grouping loop and the report loop. -/
def runAnalysis (compile : String → Option (String → Bool))
    (relf : String → Option String) (settings : Settings) (P : Program) :
    Except AnalysisError (List Issue) :=
  if P.loadErr then .error .load
  else if P.numInitial = 0 then .error .noPackages
  else if 0 < P.numPkgErrors then .error .pkgErrors
  else
    match compileFilter compile settings.filter with
    | .error e => .error e
    | .ok filter =>
      if P.numMains = 0 then .error .noMains
      else .ok (buildIssues relf filter P.generated
        (resolve P.sourceFuncs (reachablePosn P.rtaReachable)).byPkgPath)

/-- All functions surviving into the grouped map, in group order. -/
def flattenGroups (groups : List (String × List SsaFunc)) : List SsaFunc :=
  groups.flatMap Prod.snd

/-- The survivors of the grouping loop, as a plain recursion on the input
list (proved below to enumerate the grouped map up to permutation). -/
def resolveList (reach : List Position) : List SsaFunc → List SsaFunc
  | [] => []
  | fn :: rest =>
    if fn.posn ∈ reach then resolveList reach rest
    else fn :: resolveList (fn.posn :: reach) rest

/-- Two association-list entries with the same key whose member lists are
permutations of each other. -/
def EntryPerm (a b : String × List SsaFunc) : Prop :=
  a.1 = b.1 ∧ a.2.Perm b.2

/-- `g'` is an admissible enumeration of the grouped map `g`: the entries
of `g` in some order, each entry's member list in some order. Go map
iteration order is unspecified, so every such enumeration is a possible
behavior of the report loop's `range` statements. -/
def GroupsPerm (g g' : List (String × List SsaFunc)) : Prop :=
  ∃ k, List.Forall₂ EntryPerm g k ∧ k.Perm g'

/-- The contribution of one entry of the grouped map to the report. -/
def contribution (relf : String → Option String) (filter : Option (String → Bool))
    (generated : List String) (g : String × List SsaFunc) : List Issue :=
  if matchFilter filter g.1 then
    (g.2.filter (fun fn => decide (fn.posn.filename ∉ generated))).map (issueOf relf)
  else []

/-- Every member list of the grouped map sits under its own package path. -/
def GroupsWF (groups : List (String × List SsaFunc)) : Prop :=
  ∀ g ∈ groups, ∀ fn ∈ g.2, fn.pkgpath = g.1

theorem innerFold_eq (relf : String → Option String) (generated : List String)
    (fns : List SsaFunc) (acc : List Issue) :
    fns.foldl
      (fun issues fn =>
        if fn.posn.filename ∈ generated then issues else issues ++ [issueOf relf fn]) acc
      = acc ++ (fns.filter (fun fn => decide (fn.posn.filename ∉ generated))).map (issueOf relf) := by
  induction fns generalizing acc with
  | nil => simp
  | cons fn rest ih =>
    by_cases h : fn.posn.filename ∈ generated <;>
      simp [List.foldl_cons, List.filter_cons, h, ih]

theorem buildIssues_eq_flatMap (relf : String → Option String)
    (filter : Option (String → Bool)) (generated : List String)
    (groups : List (String × List SsaFunc)) :
    buildIssues relf filter generated groups
      = groups.flatMap (contribution relf filter generated) := by
  suffices h : ∀ (gs : List (String × List SsaFunc)) (acc : List Issue),
      gs.foldl
        (fun issues g =>
          if matchFilter filter g.1 then
            g.2.foldl
              (fun issues fn =>
                if fn.posn.filename ∈ generated then issues else issues ++ [issueOf relf fn])
              issues
          else issues) acc
        = acc ++ gs.flatMap (contribution relf filter generated) by
    simpa [buildIssues] using h groups []
  intro gs
  induction gs with
  | nil => simp
  | cons g rest ih =>
    intro acc
    rw [List.foldl_cons, ih, List.flatMap_cons, ← List.append_assoc]
    congr 1
    by_cases h : matchFilter filter g.1
    · rw [if_pos h, innerFold_eq, contribution, if_pos h]
    · rw [if_neg h, contribution, if_neg h, List.append_nil]

theorem contribution_perm (relf : String → Option String) (filter : Option (String → Bool))
    (generated : List String) {a b : String × List SsaFunc} (h : EntryPerm a b) :
    (contribution relf filter generated a).Perm (contribution relf filter generated b) := by
  obtain ⟨h1, h2⟩ := h
  unfold contribution
  rw [h1]
  by_cases hm : matchFilter filter b.1
  · simp only [hm, if_true]
    exact (h2.filter _).map _
  · simp [hm]

theorem buildIssues_forall₂ (relf : String → Option String) (filter : Option (String → Bool))
    (generated : List String) {g k : List (String × List SsaFunc)}
    (h : List.Forall₂ EntryPerm g k) :
    (buildIssues relf filter generated g).Perm (buildIssues relf filter generated k) := by
  rw [buildIssues_eq_flatMap, buildIssues_eq_flatMap]
  induction h with
  | nil => exact .refl _
  | cons hab _ ih =>
    simp only [List.flatMap_cons]
    exact (contribution_perm relf filter generated hab).append ih

theorem buildIssues_groupsPerm (relf : String → Option String) (filter : Option (String → Bool))
    (generated : List String) {g g' : List (String × List SsaFunc)} (h : GroupsPerm g g') :
    (buildIssues relf filter generated g).Perm (buildIssues relf filter generated g') := by
  obtain ⟨k, hf, hp⟩ := h
  refine (buildIssues_forall₂ relf filter generated hf).trans ?_
  rw [buildIssues_eq_flatMap, buildIssues_eq_flatMap]
  exact hp.flatMap_right _

theorem groupsPerm_refl (g : List (String × List SsaFunc)) : GroupsPerm g g :=
  ⟨g, List.forall₂_same.mpr (fun _ _ => ⟨rfl, .refl _⟩), .refl _⟩

theorem flattenGroups_nil : flattenGroups [] = [] := rfl

theorem flattenGroups_cons (g : String × List SsaFunc) (rest : List (String × List SsaFunc)) :
    flattenGroups (g :: rest) = g.2 ++ flattenGroups rest := by
  simp [flattenGroups]

theorem addToGroup_flatten (groups : List (String × List SsaFunc)) (pkg : String)
    (fn : SsaFunc) :
    (flattenGroups (addToGroup groups pkg fn)).Perm (flattenGroups groups ++ [fn]) := by
  induction groups with
  | nil => simp [addToGroup, flattenGroups]
  | cons g rest ih =>
    by_cases h : g.1 = pkg
    · simp only [addToGroup, h, if_true, flattenGroups_cons]
      rw [List.append_assoc, List.append_assoc]
      exact List.perm_append_comm.append_left g.2
    · simp only [addToGroup, h, if_false, flattenGroups_cons]
      rw [List.append_assoc]
      exact ih.append_left g.2

theorem addToGroup_wf {groups : List (String × List SsaFunc)} (fn : SsaFunc)
    (h : GroupsWF groups) : GroupsWF (addToGroup groups fn.pkgpath fn) := by
  induction groups with
  | nil =>
    intro g hg f hf
    simp [addToGroup] at hg
    subst hg
    simp at hf
    subst hf
    rfl
  | cons g rest ih =>
    have hg : ∀ f ∈ g.2, f.pkgpath = g.1 := h g (by simp)
    have hrest : GroupsWF rest := fun a ha => h a (List.mem_cons_of_mem _ ha)
    by_cases hk : g.1 = fn.pkgpath
    · intro a ha f hf
      simp only [addToGroup, hk, if_true] at ha
      rcases List.mem_cons.mp ha with h1 | h1
      · subst h1
        rcases List.mem_append.mp hf with h2 | h2
        · exact (hg f h2).trans hk
        · simp at h2
          subst h2
          rfl
      · exact hrest a h1 f hf
    · intro a ha f hf
      simp only [addToGroup, hk, if_false] at ha
      rcases List.mem_cons.mp ha with h1 | h1
      · subst h1
        exact hg f hf
      · exact ih hrest a h1 f hf

theorem resolve_aux_flatten (fns : List SsaFunc) (st : GroupState) :
    (flattenGroups (fns.foldl resolveStep st).byPkgPath).Perm
      (flattenGroups st.byPkgPath ++ resolveList st.reach fns) := by
  induction fns generalizing st with
  | nil => simp [resolveList]
  | cons fn rest ih =>
    by_cases h : fn.posn ∈ st.reach
    · rw [List.foldl_cons, resolveStep, if_pos h]
      rw [resolveList, if_pos h]
      exact ih st
    · rw [List.foldl_cons, resolveStep, if_neg h]
      rw [resolveList, if_neg h]
      refine (ih _).trans ?_
      refine ((addToGroup_flatten st.byPkgPath fn.pkgpath fn).append_right _).trans ?_
      rw [List.append_assoc]
      exact .refl _

theorem resolve_flatten (fns : List SsaFunc) (reach : List Position) :
    (flattenGroups (resolve fns reach).byPkgPath).Perm (resolveList reach fns) := by
  simpa [flattenGroups] using resolve_aux_flatten fns ⟨reach, []⟩

theorem resolve_aux_wf (fns : List SsaFunc) (st : GroupState)
    (h : GroupsWF st.byPkgPath) : GroupsWF (fns.foldl resolveStep st).byPkgPath := by
  induction fns generalizing st with
  | nil => exact h
  | cons fn rest ih =>
    by_cases hm : fn.posn ∈ st.reach
    · rw [List.foldl_cons, resolveStep, if_pos hm]
      exact ih st h
    · rw [List.foldl_cons, resolveStep, if_neg hm]
      exact ih _ (addToGroup_wf fn h)

theorem resolve_wf (fns : List SsaFunc) (reach : List Position) :
    GroupsWF (resolve fns reach).byPkgPath :=
  resolve_aux_wf fns ⟨reach, []⟩ (by intro g hg; simp at hg)

theorem resolve_aux_reach_mono (fns : List SsaFunc) (st : GroupState) (p : Position)
    (h : p ∈ st.reach) : p ∈ (fns.foldl resolveStep st).reach := by
  induction fns generalizing st with
  | nil => exact h
  | cons fn rest ih =>
    by_cases hm : fn.posn ∈ st.reach
    · rw [List.foldl_cons, resolveStep, if_pos hm]
      exact ih st h
    · rw [List.foldl_cons, resolveStep, if_neg hm]
      exact ih _ (List.mem_cons_of_mem _ h)

theorem resolve_aux_reach_mem (fns : List SsaFunc) (st : GroupState) (fn : SsaFunc)
    (h : fn ∈ fns) : fn.posn ∈ (fns.foldl resolveStep st).reach := by
  induction fns generalizing st with
  | nil => cases h
  | cons g rest ih =>
    rcases List.mem_cons.mp h with h1 | h1
    · subst h1
      by_cases hm : fn.posn ∈ st.reach
      · rw [List.foldl_cons, resolveStep, if_pos hm]
        exact resolve_aux_reach_mono rest st fn.posn hm
      · rw [List.foldl_cons, resolveStep, if_neg hm]
        exact resolve_aux_reach_mono rest _ fn.posn (List.mem_cons_self _ _)
    · by_cases hm : g.posn ∈ st.reach
      · rw [List.foldl_cons, resolveStep, if_pos hm]
        exact ih st h1
      · rw [List.foldl_cons, resolveStep, if_neg hm]
        exact ih _ h1

theorem resolveList_not_mem_reach (reach : List Position) (fns : List SsaFunc)
    (fn : SsaFunc) (h : fn ∈ resolveList reach fns) : fn.posn ∉ reach := by
  induction fns generalizing reach with
  | nil => cases h
  | cons g rest ih =>
    rw [resolveList] at h
    by_cases hm : g.posn ∈ reach
    · rw [if_pos hm] at h
      exact ih reach h
    · rw [if_neg hm] at h
      rcases List.mem_cons.mp h with h1 | h1
      · subst h1
        exact hm
      · intro hc
        exact ih _ h1 (List.mem_cons_of_mem _ hc)

theorem resolveList_countP_eq_zero (reach : List Position) (fns : List SsaFunc)
    (p : Position) (h : p ∈ reach) :
    (resolveList reach fns).countP (fun fn => decide (fn.posn = p)) = 0 := by
  induction fns generalizing reach with
  | nil => simp [resolveList]
  | cons g rest ih =>
    rw [resolveList]
    by_cases hm : g.posn ∈ reach
    · rw [if_pos hm]
      exact ih reach h
    · rw [if_neg hm, List.countP_cons]
      have hne : ¬g.posn = p := fun hc => hm (hc ▸ h)
      simp only [hne, decide_eq_true_eq, if_false, Nat.add_zero, decide_False]
      exact ih _ (List.mem_cons_of_mem _ h)

theorem resolveList_countP_le_one (reach : List Position) (fns : List SsaFunc)
    (p : Position) :
    (resolveList reach fns).countP (fun fn => decide (fn.posn = p)) ≤ 1 := by
  induction fns generalizing reach with
  | nil => simp [resolveList]
  | cons g rest ih =>
    rw [resolveList]
    by_cases hm : g.posn ∈ reach
    · rw [if_pos hm]
      exact ih reach
    · rw [if_neg hm, List.countP_cons]
      by_cases hp : g.posn = p
      · subst hp
        rw [resolveList_countP_eq_zero _ rest g.posn (List.mem_cons_self _ _)]
        simp
      · simp only [hp, decide_eq_true_eq, if_false, Nat.add_zero, decide_False]
        exact ih _

theorem resolveList_congr (r₁ r₂ : List Position) (fns : List SsaFunc)
    (h : ∀ p : Position, p ∈ r₁ ↔ p ∈ r₂) :
    resolveList r₁ fns = resolveList r₂ fns := by
  induction fns generalizing r₁ r₂ with
  | nil => rfl
  | cons g rest ih =>
    rw [resolveList, resolveList]
    by_cases hm : g.posn ∈ r₁
    · rw [if_pos hm, if_pos ((h g.posn).mp hm)]
      exact ih r₁ r₂ h
    · rw [if_neg hm, if_neg (fun hc => hm ((h g.posn).mpr hc))]
      have hext : ∀ p : Position, p ∈ g.posn :: r₁ ↔ p ∈ g.posn :: r₂ := by
        intro p
        simp only [List.mem_cons]
        exact or_congr Iff.rfl (h p)
      rw [ih _ _ hext]

theorem resolveList_fresh (q : Position) (reach : List Position) (fns : List SsaFunc)
    (h : q ∉ fns.map SsaFunc.posn) :
    resolveList (q :: reach) fns = resolveList reach fns := by
  induction fns generalizing reach with
  | nil => rfl
  | cons g rest ih =>
    have hq : ¬g.posn = q := by
      intro hc
      exact h (by simp [← hc])
    have hrest : q ∉ rest.map SsaFunc.posn := by
      intro hc
      exact h (by simp at hc ⊢; tauto)
    rw [resolveList, resolveList]
    by_cases hm : g.posn ∈ reach
    · rw [if_pos (List.mem_cons_of_mem _ hm), if_pos hm]
      exact ih reach hrest
    · have hg1 : g.posn ∉ q :: reach := by
        intro hc
        rcases List.mem_cons.mp hc with h1 | h1
        · exact hq h1
        · exact hm h1
      rw [if_neg hg1, if_neg hm]
      have hswap : ∀ p : Position, p ∈ g.posn :: q :: reach ↔ p ∈ q :: g.posn :: reach := by
        intro p
        simp only [List.mem_cons]
        tauto
      rw [resolveList_congr _ _ rest hswap, ih (g.posn :: reach) hrest]

theorem resolveList_nodup (reach : List Position) (fns : List SsaFunc)
    (h : (fns.map SsaFunc.posn).Nodup) :
    resolveList reach fns = fns.filter (fun fn => decide (fn.posn ∉ reach)) := by
  induction fns generalizing reach with
  | nil => rfl
  | cons g rest ih =>
    rw [List.map_cons, List.nodup_cons] at h
    rw [resolveList, List.filter_cons]
    by_cases hm : g.posn ∈ reach
    · rw [if_pos hm, ih reach h.2]
      simp [hm]
    · rw [if_neg hm, resolveList_fresh g.posn reach rest h.1, ih reach h.2]
      simp [hm]

theorem buildIssues_wf_eq (relf : String → Option String) (filter : Option (String → Bool))
    (gen : List String) :
    ∀ groups : List (String × List SsaFunc), GroupsWF groups →
      buildIssues relf filter gen groups
        = ((flattenGroups groups).filter
            (fun fn => matchFilter filter fn.pkgpath && decide (fn.posn.filename ∉ gen))).map
          (issueOf relf) := by
  intro groups
  induction groups with
  | nil => intro _; rfl
  | cons g rest ih =>
    intro hwf
    have hg : ∀ fn ∈ g.2, fn.pkgpath = g.1 := hwf g (by simp)
    have hrest : GroupsWF rest := fun a ha => hwf a (List.mem_cons_of_mem _ ha)
    rw [buildIssues_eq_flatMap] at ih ⊢
    rw [List.flatMap_cons, flattenGroups_cons, List.filter_append, List.map_append, ih hrest]
    congr 1
    unfold contribution
    by_cases hm : matchFilter filter g.1
    · rw [if_pos hm]
      congr 1
      apply List.filter_congr
      intro fn hfn
      rw [hg fn hfn, hm, Bool.true_and]
    · rw [if_neg hm]
      have : List.filter
          (fun fn => matchFilter filter fn.pkgpath && decide (fn.posn.filename ∉ gen)) g.2
          = [] := by
        apply List.filter_eq_nil_iff.mpr
        intro fn hfn
        rw [hg fn hfn]
        simp only [Bool.and_eq_true, not_and]
        intro hc
        exact absurd hc hm
      rw [this, List.map_nil]

/-- C1: with the filter option empty, `runAnalysis` of deadcode.go leaves the
filter nil and therefore reports functions in every package, even when the
root module's path is known and the package lies outside it. The loaded
program below has module path `example.com/mod`, one main package, and one
unreachable function in the unrelated package `other/dep`; the run succeeds
and reports that function. The comment at deadcode.go:131 ("If -filter is
unset, use first module (if available)"), the requested `packages.NeedModule`
load mode, and the earlier variant (src/unnamed/part_000, lines 94-103,
which anchors the filter on the first module's path) all document the
claimed behavior, which this evaluation shows the code does not implement. -/
theorem empty_filter_reports_outside_module :
    runAnalysis (fun _ => none) (fun _ => none) ⟨false, ""⟩
      ⟨false, 2, 0, some "example.com/mod", 1,
        [⟨"f", "other/dep", some ⟨"/x/dep.go", 5, 4, 1⟩⟩], [], []⟩
      = .ok [⟨"f", "/x/dep.go", 4⟩] := rfl

/-- C2: the report loop of deadcode.go ranges over `maps.Keys(byPkgPath)`
without sorting, so the Issue sequence follows the map's unspecified
iteration order, not ascending package path. Below, the grouped map holds
packages `b` and `a`; enumerating it in the order shown (one admissible Go
map iteration order) emits the issue of package `b` before that of package
`a`, although `a < b`. The earlier variant (src/unnamed/part_000, line 171)
sorts the keys with `slices.Sorted`, as the spec promises. -/
theorem report_not_sorted_by_package :
    (resolve [⟨"g", "b", some ⟨"b/b.go", 6, 4, 1⟩⟩, ⟨"f", "a", some ⟨"a/a.go", 5, 2, 1⟩⟩]
        []).byPkgPath
      = [("b", [⟨"g", "b", some ⟨"b/b.go", 6, 4, 1⟩⟩]),
         ("a", [⟨"f", "a", some ⟨"a/a.go", 5, 2, 1⟩⟩])]
    ∧ buildIssues (fun _ => none) none []
        [("b", [⟨"g", "b", some ⟨"b/b.go", 6, 4, 1⟩⟩]),
         ("a", [⟨"f", "a", some ⟨"a/a.go", 5, 2, 1⟩⟩])]
      = [⟨"g", "b/b.go", 4⟩, ⟨"f", "a/a.go", 2⟩] := ⟨by decide, by decide⟩

/-- C4: the dedup guard. Every source function processed by the grouping
loop ends with its position in the (mutated) reachable set, and across the
whole grouped map at most one surviving function carries any given
position, so at most one Issue is ever produced for a position — for every
input, duplicates included. -/
theorem resolver_at_most_one_per_position (fns : List SsaFunc) (reach : List Position) :
    (fns.all (fun fn => decide (fn.posn ∈ (resolve fns reach).reach)) = true)
    ∧ ∀ p : Position,
        (flattenGroups (resolve fns reach).byPkgPath).countP
          (fun fn => decide (fn.posn = p)) ≤ 1 := by
  constructor
  · rw [List.all_eq_true]
    intro fn hfn
    simp only [decide_eq_true_eq]
    exact resolve_aux_reach_mem fns ⟨reach, []⟩ fn hfn
  · intro p
    rw [(resolve_flatten fns reach).countP_eq]
    exact resolveList_countP_le_one reach fns p

/-- C5 (counterexample): a declared `init` whose package the call-graph
oracle never reaches IS reported as unreachable. The rta reachable set is
empty, yet the claim says an initializer is never reported regardless of
call-graph presence; the code only exempts members of the reachable set. -/
theorem init_reported_when_not_oracle_reachable :
    buildIssues (fun _ => none) none []
        (resolve [⟨"init", "p", some ⟨"p/a.go", 7, 3, 1⟩⟩] (reachablePosn [])).byPkgPath
      = [⟨"init", "p/a.go", 3⟩] := by decide

/-- C5 (amended): every member of the rta reachable set that has a valid
position or is named `init` has its position placed in `reachablePosn`, and
consequently no source function at that position ever survives into the
grouped unreachable map — so an initializer the oracle lists as reachable
is never reported, even when its IR identity lacks a valid position. -/
theorem reachable_init_not_reported (rta src : List SsaFunc) (fn : SsaFunc)
    (hmem : fn ∈ rta) (hvalid : fn.pos.isSome = true ∨ fn.name = "init") :
    fn.posn ∈ reachablePosn rta
    ∧ ∀ g ∈ flattenGroups (resolve src (reachablePosn rta)).byPkgPath,
        g.posn ≠ fn.posn := by
  have h1 : fn.posn ∈ reachablePosn rta := by
    unfold reachablePosn
    apply List.mem_map_of_mem
    rw [List.mem_filter]
    refine ⟨hmem, ?_⟩
    rcases hvalid with h | h
    · simp [h]
    · simp [h]
  refine ⟨h1, ?_⟩
  intro g hg hc
  have h2 := resolveList_not_mem_reach _ _ g ((resolve_flatten src (reachablePosn rta)).subset hg)
  rw [hc] at h2
  exact h2 h1

theorem reachable_init_not_reported_witness :
    ((⟨"init", "p", none⟩ : SsaFunc) ∈ ([⟨"init", "p", none⟩] : List SsaFunc)
      ∧ ((⟨"init", "p", none⟩ : SsaFunc).pos.isSome = true
          ∨ (⟨"init", "p", none⟩ : SsaFunc).name = "init"))
    ∧ ((⟨"init", "p", none⟩ : SsaFunc).posn ∈ reachablePosn [⟨"init", "p", none⟩]
      ∧ ∀ g ∈ flattenGroups
            (resolve [⟨"f", "p", some zeroPosition⟩]
              (reachablePosn [⟨"init", "p", none⟩])).byPkgPath,
          g.posn ≠ (⟨"init", "p", none⟩ : SsaFunc).posn) :=
  ⟨⟨by decide, Or.inr rfl⟩,
    reachable_init_not_reported [⟨"init", "p", none⟩] [⟨"f", "p", some zeroPosition⟩]
      ⟨"init", "p", none⟩ (by decide) (Or.inr rfl)⟩

/-- C7: the generated-file exclusion. For every filter configuration, the
report built from the grouped map equals the report built with every
function lying in a generated file deleted from the map (and an empty
generated set) — functions in generated files never contribute an Issue,
filter match or not. -/
theorem generated_always_excluded (relf : String → Option String)
    (filter : Option (String → Bool)) (gen : List String)
    (groups : List (String × List SsaFunc)) :
    buildIssues relf filter gen groups
      = buildIssues relf filter []
          (groups.map
            (fun g => (g.1, g.2.filter (fun fn => decide (fn.posn.filename ∉ gen))))) := by
  rw [buildIssues_eq_flatMap, buildIssues_eq_flatMap]
  induction groups with
  | nil => rfl
  | cons g rest ih =>
    rw [List.map_cons, List.flatMap_cons, List.flatMap_cons, ih]
    congr 1
    unfold contribution
    by_cases hm : matchFilter filter g.1 <;> simp [hm, List.filter_filter]

/-- C10: `Rel` is total and never reports an error: when `filepath.Rel`
succeeds it returns the relative path, and otherwise it returns the input
filename unchanged (possibly an absolute path). -/
theorem Rel_total_cases (relf : String → Option String) (filename : String) :
    (∃ r, relf filename = some r ∧ Rel relf filename = r)
    ∨ (relf filename = none ∧ Rel relf filename = filename) := by
  cases h : relf filename with
  | none => exact Or.inr ⟨rfl, by simp [Rel, h]⟩
  | some r => exact Or.inl ⟨r, rfl, by simp [Rel, h]⟩

/-- C3 (counterexample): completeness as stated fails when two declared
functions share a SourcePosition, because the dedup guard runs before the
package filter. Below, the duplicate in package `q` is processed first,
claims the shared position, and is then rejected by the filter; the
function in package `p` — unreachable, not generated, and matching the
filter — is suppressed by the guard, so the output is empty. -/
theorem completeness_fails_on_shared_position :
    buildIssues (fun _ => none) (some (fun s => s == "p")) []
        (resolve
          [⟨"f", "q", some ⟨"p/a.go", 7, 3, 1⟩⟩, ⟨"f", "p", some ⟨"p/a.go", 7, 3, 1⟩⟩]
          []).byPkgPath
      = []
    ∧ matchFilter (some (fun s => s == "p")) "p" = true
    ∧ ((⟨"f", "p", some ⟨"p/a.go", 7, 3, 1⟩⟩ : SsaFunc).posn ∉ ([] : List Position)) :=
  ⟨by decide, by decide, by decide⟩

/-- C3 (amended): when the declared functions carry pairwise distinct
SourcePositions, the report is exact — over every admissible enumeration of
the grouped map, the Issue sequence is a permutation of one Issue per
declared function whose position is absent from the reachable set, whose
package matches the filter, and whose file is not generated. In particular,
with an empty reachable set every (matching, non-generated) declared
function is reported, and no error arises. -/
theorem nodup_positions_exact_report (relf : String → Option String)
    (filter : Option (String → Bool)) (gen : List String)
    (fns : List SsaFunc) (reach : List Position)
    (groups : List (String × List SsaFunc))
    (hnd : (fns.map SsaFunc.posn).Nodup)
    (hrun : GroupsPerm (resolve fns reach).byPkgPath groups) :
    (buildIssues relf filter gen groups).Perm
      (((fns.filter (fun fn => decide (fn.posn ∉ reach))).filter
          (fun fn => matchFilter filter fn.pkgpath && decide (fn.posn.filename ∉ gen))).map
        (issueOf relf)) := by
  refine (buildIssues_groupsPerm relf filter gen hrun).symm.trans ?_
  rw [buildIssues_wf_eq relf filter gen _ (resolve_wf fns reach)]
  refine (((resolve_flatten fns reach).filter _).map _).trans ?_
  rw [resolveList_nodup reach fns hnd]

theorem nodup_positions_exact_report_witness :
    ((([⟨"f", "p", some ⟨"p/a.go", 7, 3, 1⟩⟩] : List SsaFunc).map SsaFunc.posn).Nodup)
    ∧ (buildIssues (fun _ => none) none []
          (resolve [⟨"f", "p", some ⟨"p/a.go", 7, 3, 1⟩⟩] []).byPkgPath).Perm
        (((([⟨"f", "p", some ⟨"p/a.go", 7, 3, 1⟩⟩] : List SsaFunc).filter
              (fun fn => decide (fn.posn ∉ ([] : List Position)))).filter
            (fun fn => matchFilter none fn.pkgpath
                && decide (fn.posn.filename ∉ ([] : List String)))).map
          (issueOf (fun _ => none))) :=
  ⟨by decide,
    nodup_positions_exact_report (fun _ => none) none []
      [⟨"f", "p", some ⟨"p/a.go", 7, 3, 1⟩⟩] [] _ (by decide) (groupsPerm_refl _)⟩

/-- C6: `runAnalysis` returns a terminal error value exactly on the fatal
conditions — load failure, zero packages, packages with errors, a set
filter that fails to compile, or no main packages — and, returning an
`Except`, it never pairs an Issue list with an error. -/
theorem runAnalysis_error_iff_fatal (compile : String → Option (String → Bool))
    (relf : String → Option String) (s : Settings) (P : Program) :
    (∃ e, runAnalysis compile relf s P = .error e) ↔
      (P.loadErr = true ∨ P.numInitial = 0 ∨ 0 < P.numPkgErrors
        ∨ (s.filter ≠ "" ∧ compile s.filter = none) ∨ P.numMains = 0) := by
  unfold runAnalysis compileFilter
  by_cases h1 : P.loadErr <;> by_cases h2 : P.numInitial = 0 <;>
    by_cases h3 : 0 < P.numPkgErrors <;> by_cases h4 : s.filter = "" <;>
    by_cases h6 : P.numMains = 0 <;>
    cases hcf : compile s.filter <;>
    simp [h1, h2, h3, h4, h6, hcf]

/-- C8: widening the filter never removes an Issue. If every package path
matched by `P` is also matched by `Pw`, then for the same declarations,
reachable set and generated set, every Issue in the report of a run under
`P` is present in the report of a run under `Pw`, whatever map iteration
orders the two runs see. -/
theorem filter_widening_monotone (relf : String → Option String) (gen : List String)
    (fns : List SsaFunc) (reach : List Position)
    (g g' : List (String × List SsaFunc)) (P Pw : Option (String → Bool))
    (hg : GroupsPerm (resolve fns reach).byPkgPath g)
    (hg' : GroupsPerm (resolve fns reach).byPkgPath g')
    (hsub : ∀ pkg : String, matchFilter P pkg = true → matchFilter Pw pkg = true)
    (i : Issue) (hi : i ∈ buildIssues relf P gen g) :
    i ∈ buildIssues relf Pw gen g' := by
  have h1 : i ∈ buildIssues relf P gen (resolve fns reach).byPkgPath :=
    (buildIssues_groupsPerm relf P gen hg).mem_iff.mpr hi
  have h2 : i ∈ buildIssues relf Pw gen (resolve fns reach).byPkgPath := by
    rw [buildIssues_eq_flatMap] at h1 ⊢
    rw [List.mem_flatMap] at h1 ⊢
    obtain ⟨a, ha, hia⟩ := h1
    refine ⟨a, ha, ?_⟩
    unfold contribution at hia ⊢
    by_cases hm : matchFilter P a.1
    · rw [if_pos (hsub a.1 hm)]
      rwa [if_pos hm] at hia
    · rw [if_neg hm] at hia
      simp at hia
  exact (buildIssues_groupsPerm relf Pw gen hg').mem_iff.mp h2

theorem filter_widening_monotone_witness :
    (∀ pkg : String, matchFilter (some (fun s => s == "a")) pkg = true
        → matchFilter none pkg = true)
    ∧ (⟨"f", "a/a.go", 2⟩ : Issue) ∈ buildIssues (fun _ => none) (some (fun s => s == "a")) []
        (resolve [⟨"f", "a", some ⟨"a/a.go", 5, 2, 1⟩⟩] []).byPkgPath
    ∧ (⟨"f", "a/a.go", 2⟩ : Issue) ∈ buildIssues (fun _ => none) none []
        (resolve [⟨"f", "a", some ⟨"a/a.go", 5, 2, 1⟩⟩] []).byPkgPath :=
  ⟨fun _ _ => rfl, by decide,
    filter_widening_monotone (fun _ => none) [] [⟨"f", "a", some ⟨"a/a.go", 5, 2, 1⟩⟩] []
      _ _ (some (fun s => s == "a")) none (groupsPerm_refl _) (groupsPerm_refl _)
      (fun _ _ => rfl) ⟨"f", "a/a.go", 2⟩ (by decide)⟩

/-- C9 (counterexample): two runs on the same (declarations, reachable-set)
input need not produce the same Issue sequence. The grouped map below holds
packages `a` and `b`; its two admissible enumerations (Go map iteration
order is unspecified and varies between runs) yield different orders, so
output equality "including order" fails. -/
theorem report_order_not_run_invariant :
    GroupsPerm
        (resolve
          [⟨"f", "a", some ⟨"a/a.go", 5, 2, 1⟩⟩, ⟨"g", "b", some ⟨"b/b.go", 6, 4, 1⟩⟩]
          []).byPkgPath
        [("b", [⟨"g", "b", some ⟨"b/b.go", 6, 4, 1⟩⟩]),
         ("a", [⟨"f", "a", some ⟨"a/a.go", 5, 2, 1⟩⟩])]
    ∧ buildIssues (fun _ => none) none []
        (resolve
          [⟨"f", "a", some ⟨"a/a.go", 5, 2, 1⟩⟩, ⟨"g", "b", some ⟨"b/b.go", 6, 4, 1⟩⟩]
          []).byPkgPath
      ≠ buildIssues (fun _ => none) none []
        [("b", [⟨"g", "b", some ⟨"b/b.go", 6, 4, 1⟩⟩]),
         ("a", [⟨"f", "a", some ⟨"a/a.go", 5, 2, 1⟩⟩])] :=
  ⟨⟨_, List.forall₂_same.mpr (fun _ _ => ⟨rfl, .refl _⟩), List.Perm.swap _ _ _⟩,
    by decide⟩

/-- C9 (amended): the resolver and report builder are deterministic up to
map iteration order — any two runs on the same (declarations, reachable-set)
input produce the same multiset of Issues: their Issue sequences are
permutations of each other. -/
theorem report_content_run_invariant (relf : String → Option String)
    (filter : Option (String → Bool)) (gen : List String)
    (fns : List SsaFunc) (reach : List Position)
    (g₁ g₂ : List (String × List SsaFunc))
    (h₁ : GroupsPerm (resolve fns reach).byPkgPath g₁)
    (h₂ : GroupsPerm (resolve fns reach).byPkgPath g₂) :
    (buildIssues relf filter gen g₁).Perm (buildIssues relf filter gen g₂) :=
  (buildIssues_groupsPerm relf filter gen h₁).symm.trans
    (buildIssues_groupsPerm relf filter gen h₂)

theorem report_content_run_invariant_witness :
    GroupsPerm (resolve [⟨"f", "a", some ⟨"a/a.go", 5, 2, 1⟩⟩] []).byPkgPath
        (resolve [⟨"f", "a", some ⟨"a/a.go", 5, 2, 1⟩⟩] []).byPkgPath
    ∧ (buildIssues (fun _ => none) none []
          (resolve [⟨"f", "a", some ⟨"a/a.go", 5, 2, 1⟩⟩] []).byPkgPath).Perm
        (buildIssues (fun _ => none) none []
          (resolve [⟨"f", "a", some ⟨"a/a.go", 5, 2, 1⟩⟩] []).byPkgPath) :=
  ⟨groupsPerm_refl _,
    report_content_run_invariant (fun _ => none) none []
      [⟨"f", "a", some ⟨"a/a.go", 5, 2, 1⟩⟩] [] _ _
      (groupsPerm_refl _) (groupsPerm_refl _)⟩

end Deadcode
